import Mathlib

/-!
Shallow embedding of the mutation-based undo/redo history engine, the
restorable-element store and the export transform of
`simplehtmleditor.js` (FranBarInstance/simple-html-editor), together with
proofs settling the frozen claims about that code.

Conventions:
* JS arrays used as stacks (`push`/`pop` at the end) are modelled as Lean
  lists with the TOP OF THE STACK AT THE HEAD (most-recent record first);
  `push` is `::`, `pop` takes the head.
* JS numbers (timestamps, the grouping window) are modelled as `ℚ`.
  The source divides both `Date.now()` and the configured window by the
  constant `TIME_SCALE_FACTOR = 10000`, so all comparisons happen between
  values of the same scale.
* A JS `null` string value is `Option.none`; a thrown `TypeError` is
  modelled by an explicit "threw" flag or an `Option.none` result.
-/

/-- Constant `MIN_GROUPING_WINDOW_MS` from the source (line 169). -/
def MIN_GROUPING_WINDOW_MS : ℚ := 100

/-- Constant `TIME_SCALE_FACTOR` from the source (line 170). -/
def TIME_SCALE_FACTOR : ℚ := 10000

/-- Default `mutationGroupingWindowMs` from the `defaults` object (line 239). -/
def DEFAULT_GROUPING_WINDOW_MS : ℚ := 200

/-- The clamp performed by `validateOptions` (lines 1234-1236):
`if (options.mutationGroupingWindowMs) options.mutationGroupingWindowMs =
Math.max(MIN_GROUPING_WINDOW_MS, options.mutationGroupingWindowMs)`.
`none` models an absent key; a supplied value of `0` is falsy in JS, so the
clamp is skipped for it. -/
def validateGroupingWindow (w : Option ℚ) : Option ℚ :=
  match w with
  | none => none
  | some v => if v ≠ 0 then some (max MIN_GROUPING_WINDOW_MS v) else some v

/-- The merge performed by `deepMerge(defaults, options)` (lines 608, 715-725)
restricted to the `mutationGroupingWindowMs` key: a key present in the user
options (any number, including `0`) overwrites the default `200`; an absent
key keeps the default. -/
def mergedGroupingWindowMs (w : Option ℚ) : ℚ :=
  (validateGroupingWindow w).getD DEFAULT_GROUPING_WINDOW_MS

/-- Line 609: `this.options.mutationGroupingWindowMs =
this.options.mutationGroupingWindowMs / TIME_SCALE_FACTOR`.  This scaled
value is the window the replay engine compares against mutation times,
which are themselves `Date.now() / TIME_SCALE_FACTOR` (line 1294). -/
def effectiveGroupingWindow (w : Option ℚ) : ℚ :=
  mergedGroupingWindowMs w / TIME_SCALE_FACTOR

/-- One recorded DOM change as kept on the history stacks.  Only the
`time` field is inspected by the stack machinery; `rid` is the identity of
the underlying mutation record. -/
structure ChangeRec where
  time : ℚ
  rid : ℕ
deriving DecidableEq, Repr

/-- The history-owning state of `ncSimpleHtmlEditor`: the two stacks
(`this.historyUndo`, `this.historyRedo`, top of stack = list head), the
force-authorization list `this.historyForce`, and the
`usesLinearUndoHistory` option. -/
structure HistState where
  historyUndo : List ChangeRec
  historyRedo : List ChangeRec
  historyForce : List String
  usesLinearUndoHistory : Bool
deriving DecidableEq, Repr

/-- Model of `resetLinearHistory` (lines 1355-1359): clear the redo stack when it is
non-empty and linear history is enabled. -/
def resetLinearHistory (st : HistState) : HistState :=
  if st.historyRedo ≠ [] ∧ st.usesLinearUndoHistory = true then
    { st with historyRedo := [] }
  else st

/-- The push protocol used by every accepted mutation in the observer
callback (lines 1299-1300, 1308-1310, 1316-1317): append the record to the
undo stack, then call `resetLinearHistory`. -/
def pushRecord (st : HistState) (r : ChangeRec) : HistState :=
  resetLinearHistory { st with historyUndo := r :: st.historyUndo }

/-- Model of `historyForcePush` (lines 1365-1368): append the token
`attr + ":" + val` to the force list. -/
def historyForcePush (force : List String) (attr val : String) : List String :=
  force ++ [attr ++ ":" ++ val]

/-- Model of `historyForceCheck` (lines 1374-1378): `var value = val || ''` turns a
`null` value into the empty string, then the token `attr + ":" + value`
is looked up in the force list. -/
def historyForceCheck (force : List String) (attr : String) (val : Option String) : Bool :=
  (attr ++ ":" ++ val.getD "") ∈ force

/-- Model of `historyForceRemove` (lines 1383-1389): builds the token with
`val.toString()` WITHOUT the `|| ''` guard, so a `null` value throws a
`TypeError` (modelled as `none`).  Otherwise the first occurrence of the
token is removed when present (`indexOf`/`splice`), and the list is
returned unchanged when absent. -/
def historyForceRemove (force : List String) (attr : String) (val : Option String) :
    Option (List String) :=
  match val with
  | none => none
  | some v => some (force.erase (attr ++ ":" ++ v))

/-- One raw `MutationRecord` as seen by the observer callback, tagged by
`mutation.type`.  `time` is the value `Date.now() / TIME_SCALE_FACTOR`
assigned at processing time (line 1294); `rid` identifies the record.  For
attribute mutations, `inFocused` models
`_this.focusedElement.contains(mutation.target)`, `inHead` models
`document.head.contains(mutation.target)` and `currentValue` models
`mutation.target.getAttribute(mutation.attributeName)` (which is `null`
when the attribute was removed). -/
inductive RawMutation where
  | charData (time : ℚ) (rid : ℕ)
  | attrM (inFocused inHead : Bool) (attrName : String) (currentValue : Option String)
      (time : ℚ) (rid : ℕ)
  | childList (time : ℚ) (rid : ℕ)
deriving DecidableEq, Repr

/-- Processing of a single mutation by the observer callback
(lines 1291-1321).  Returns the new state, whether the `contentchanges`
event was dispatched for this mutation, and whether a `TypeError` was
thrown.  For `characterData` and `childList` the record is always pushed.
For `attributes` the record is pushed iff the target is inside the focused
element or the head AND `historyForceCheck` passes; on acceptance the push
happens first (line 1308), then `historyForceRemove` runs (line 1309) -
which throws when the current value is `null`, skipping
`resetLinearHistory` and the `contentchanges` dispatch - then
`resetLinearHistory` and the dispatch. -/
def mutationStep (st : HistState) (m : RawMutation) : HistState × Bool × Bool :=
  match m with
  | .charData t rid => (pushRecord st ⟨t, rid⟩, true, false)
  | .childList t rid => (pushRecord st ⟨t, rid⟩, true, false)
  | .attrM inFocused inHead attrName currentValue t rid =>
    if (inFocused || inHead) && historyForceCheck st.historyForce attrName currentValue then
      let st1 : HistState := { st with historyUndo := ⟨t, rid⟩ :: st.historyUndo }
      match historyForceRemove st.historyForce attrName currentValue with
      | none => (st1, false, true)
      | some force1 => (resetLinearHistory { st1 with historyForce := force1 }, true, false)
    else (st, false, false)

/-- The `mutations.forEach` loop of the observer callback: processes the
batch in order, counting `contentchanges` dispatches; a thrown `TypeError`
aborts the rest of the batch.  Returns (state, contentchanges count,
threw). -/
def processMutations (st : HistState) : List RawMutation → HistState × ℕ × Bool
  | [] => (st, 0, false)
  | m :: rest =>
    let r1 := mutationStep st m
    if r1.2.2 then (r1.1, 0, true)
    else
      let r2 := processMutations r1.1 rest
      (r2.1, (if r1.2.1 then 1 else 0) + r2.2.1, r2.2.2)

/-- The whole observer callback (lines 1286-1324): returns unchanged with
no events when editing is disabled or mutations are ignored (line 1287);
otherwise processes the batch and finally dispatches `editorchanges` once
(line 1323) - unless an exception aborted the callback.  Result:
(state, contentchanges count, editorchanges count). -/
def setObserverBatch (editingEnabled ignoreMutations : Bool) (st : HistState)
    (muts : List RawMutation) : HistState × ℕ × ℕ :=
  if editingEnabled && !ignoreMutations then
    let r := processMutations st muts
    (r.1, r.2.1, if r.2.2 then 0 else 1)
  else (st, 0, 0)

/-- The grouping tie-break of `undoredo` (lines 1413, 1429).  JS evaluates
`previousTime && cmp`, so the comparison only fires when `previousTime` is
truthy: non-`null` AND non-zero.  In the undo direction the group ends when
`mutation.time + window < previousTime`; in the redo direction when
`mutation.time - window > previousTime`. -/
def breakGroup (und : Bool) (w : ℚ) (prev : Option ℚ) (t : ℚ) : Bool :=
  match prev with
  | none => false
  | some p => decide (p ≠ 0) && (if und then decide (t + w < p) else decide (p < t - w))

/-- The `while (groupingByTime)` loop of `undoredo` (lines 1404-1480),
transferring records from `src` to `dest`.  The source pops a record,
pushes it to the destination, and on a group break pushes it back and pops
the destination; the net effect - modelled here - is to test the break
condition first and only then transfer.  `applied` accumulates, in replay
order, the records whose effect was applied to the DOM (lines 1439-1477).
Returns (remaining source, new destination, applied records). -/
def undoredoLoop (und : Bool) (w : ℚ) :
    List ChangeRec → List ChangeRec → List ChangeRec → Option ℚ →
    List ChangeRec × List ChangeRec × List ChangeRec
  | [], dest, applied, _ => ([], dest, applied)
  | r :: src, dest, applied, prev =>
    if breakGroup und w prev r.time then (r :: src, dest, applied)
    else undoredoLoop und w src (r :: dest) (applied ++ [r]) (some r.time)

/-- Model of `undoredo` (lines 1394-1485) on the history state: with `und = true`
the source is the undo stack and the destination the redo stack, and
conversely for redo.  Returns the new state together with the list of
records replayed onto the DOM, in replay order. -/
def undoredo (und : Bool) (w : ℚ) (st : HistState) : HistState × List ChangeRec :=
  if und then
    let r := undoredoLoop true w st.historyUndo st.historyRedo [] none
    ({ st with historyUndo := r.1, historyRedo := r.2.1 }, r.2.2)
  else
    let r := undoredoLoop false w st.historyRedo st.historyUndo [] none
    ({ st with historyRedo := r.1, historyUndo := r.2.1 }, r.2.2)

/-!
## RestorableStore (`ncsedtRestorable`, lines 15-153)

An element's attribute collection is modelled as an association list of
(name, value) pairs in document order; real DOM collections have pairwise
distinct names.
-/

/-- An element's attribute collection: (name, value) pairs in order. -/
abbrev Attrs := List (String × String)

/-- DOM `setAttribute`: overwrite the value in place when the name is
already present, otherwise append the new attribute at the end. -/
def setAttr (a : Attrs) (n v : String) : Attrs :=
  if a.any (fun p => p.1 = n) then
    a.map (fun p => if p.1 = n then (n, v) else p)
  else a ++ [(n, v)]

/-- Model of `forEach(... setAttribute(cur.name, cur.value))` over a saved
collection: apply `setAttr` for each saved pair, left to right. -/
def applyAttrs (base : Attrs) (saved : Attrs) : Attrs :=
  saved.foldl (fun acc p => setAttr acc p.1 p.2) base

/-- DOM `getAttribute`: the value of the first attribute with the given
name, `none` when absent. -/
def lookupAttr (n : String) : Attrs → Option String
  | [] => none
  | (k, v) :: t => if k = n then some v else lookupAttr n t

/-- The state of `ncsedtRestorable`: parallel lists indexed by the fixed
element lists chosen at construction (lines 18-19).  `tagCur` holds the
current `innerHTML` of each `<ncsedt-restorable>` element and `attrCur`
the current attribute collection of each `[data-ncsedt-restorable]`
element; `tagSaved`/`attrSaved` are the baselines captured once at
construction (lines 29-35) and never updated; `tagUndo`/`attrUndo` are the
single-level undo snapshots written by `restore()`.  The element lists
never change, so all reachable states keep `tagSaved` (resp. `attrSaved`)
the same length as `tagCur` (resp. `attrCur`); the definitions below are
the source loops specialised to that equal-length situation. -/
structure NcsedtRestorable where
  tagCur : List String
  tagSaved : List String
  tagUndo : List String
  attrCur : List Attrs
  attrSaved : List Attrs
  attrUndo : List Attrs
deriving DecidableEq, Repr

/-- The constructor (lines 15-36): baselines are the current state, undo
snapshots start empty. -/
def mkRestorable (tags : List String) (attrs : List Attrs) : NcsedtRestorable :=
  ⟨tags, tags, [], attrs, attrs, []⟩

/-- Model of `restore()` (lines 50-113): snapshot the current state into the undo
buffers (steps 1-2), overwrite each tag element's `innerHTML` with its
baseline (step 3), and for each attribute element remove all current
attributes (step 4) then re-apply the baseline collection with
`setAttribute` (step 5). -/
def restore (r : NcsedtRestorable) : NcsedtRestorable :=
  { r with
    tagUndo := r.tagCur
    attrUndo := r.attrCur
    tagCur := r.tagSaved
    attrCur := r.attrSaved.map (fun s => applyAttrs [] s) }

/-- Model of `undoRestore()` (lines 126-153): write the undo-buffer `innerHTML`
back (step 1), and re-apply the undo-buffer attributes with `setAttribute`
over the CURRENT collection (step 2) - the current attributes are NOT
removed first. -/
def undoRestore (r : NcsedtRestorable) : NcsedtRestorable :=
  { r with
    tagCur := r.tagUndo
    attrCur := List.zipWith applyAttrs r.attrCur r.attrUndo }

/-!
## ExportTransform: the implement-sentinel pass of `ncsedtRemover`

Line 969:
`html.replace(/<!--\s*ncsedt-implement:begin\s*-->.*<!--\s*ncsedt-implement:end\s*-->/gsi, '')`.

The pass is modelled over `List Char` with the canonical sentinel
spellings below (the regex additionally tolerates whitespace and letter
case variations inside the comments, which the modelled inputs do not
use).  The `s` flag makes `.` match newlines, so `.*` is an arbitrary
character list; `.*` is greedy, so the single global replacement deletes
from the first begin sentinel through the LAST end sentinel that starts at
or after the end of that begin sentinel; when either sentinel is missing
the string is returned unchanged.
-/

/-- The canonical begin sentinel comment. -/
def beginSentinel : List Char := "<!-- ncsedt-implement:begin -->".data

/-- The canonical end sentinel comment. -/
def endSentinel : List Char := "<!-- ncsedt-implement:end -->".data

/-- All indices at which `pat` occurs in `s`, in increasing order. -/
def occList (pat s : List Char) : List ℕ :=
  (List.range (s.length + 1)).filter (fun i => pat.isPrefixOf (s.drop i))

/-- The implement-sentinel pass of `ncsedtRemover` (line 969): delete from
the first begin-sentinel occurrence through the last end-sentinel
occurrence that starts at or after the end of the begin sentinel,
inclusive of both sentinels; no change when no such pair exists. -/
def ncsedtRemoverImplement (s : List Char) : List Char :=
  match (occList beginSentinel s).head? with
  | none => s
  | some i =>
    match ((occList endSentinel s).filter (fun j => i + beginSentinel.length ≤ j)).getLast? with
    | none => s
    | some j => s.take i ++ s.drop (j + endSentinel.length)

/-!
## Helper lemmas
-/

/-- Lemma: `resetLinearHistory` never touches the undo stack. -/
lemma resetLinearHistory_historyUndo (st : HistState) :
    (resetLinearHistory st).historyUndo = st.historyUndo := by
  unfold resetLinearHistory; split <;> rfl

/-- Lemma: `resetLinearHistory` never touches the force list. -/
lemma resetLinearHistory_historyForce (st : HistState) :
    (resetLinearHistory st).historyForce = st.historyForce := by
  unfold resetLinearHistory; split <;> rfl

/-- Lemma: `resetLinearHistory` never touches the linear-mode flag. -/
lemma resetLinearHistory_linear (st : HistState) :
    (resetLinearHistory st).usesLinearUndoHistory = st.usesLinearUndoHistory := by
  unfold resetLinearHistory; split <;> rfl

/-- With linear history enabled, the redo stack is empty after
`resetLinearHistory`. -/
lemma resetLinearHistory_redo_of_linear (st : HistState)
    (h : st.usesLinearUndoHistory = true) :
    (resetLinearHistory st).historyRedo = [] := by
  unfold resetLinearHistory
  split
  · rfl
  · rename_i hc
    rcases List.eq_nil_or_concat st.historyRedo with he | ⟨l, a, hl⟩
    · exact he
    · exact absurd ⟨by simp [hl], h⟩ hc

/-- With linear history disabled, `resetLinearHistory` is the identity on
the redo stack. -/
lemma resetLinearHistory_redo_of_nonlinear (st : HistState)
    (h : st.usesLinearUndoHistory = false) :
    (resetLinearHistory st).historyRedo = st.historyRedo := by
  unfold resetLinearHistory
  split
  · rename_i hc
    rw [h] at hc
    exact absurd hc.2 (by simp)
  · rfl

/-- The `undoredo` loop transfers an initial segment of the source stack
onto the destination stack and applies exactly that segment, in order. -/
lemma undoredoLoop_split (und : Bool) (w : ℚ) :
    ∀ (src dest applied : List ChangeRec) (prev : Option ℚ),
    ∃ moved rest, src = moved ++ rest ∧
      undoredoLoop und w src dest applied prev = (rest, moved.reverse ++ dest, applied ++ moved)
  | [], dest, applied, prev => ⟨[], [], by simp, by simp [undoredoLoop]⟩
  | r :: src, dest, applied, prev => by
    by_cases hb : breakGroup und w prev r.time
    · exact ⟨[], r :: src, by simp, by simp [undoredoLoop, hb]⟩
    · obtain ⟨mv, rst, h1, h2⟩ :=
        undoredoLoop_split und w src (r :: dest) (applied ++ [r]) (some r.time)
      refine ⟨r :: mv, rst, by simp [h1], ?_⟩
      simp only [undoredoLoop, hb, if_false, h2, List.reverse_cons, List.append_assoc]
      simp

/-- If no two records of the source are further apart than the window and
the previous timestamp (when present) is within the window of every
source record, the undo-direction loop drains the whole source. -/
lemma undoredoLoop_no_break (w : ℚ) :
    ∀ (src dest applied : List ChangeRec) (prev : Option ℚ),
    (∀ p, prev = some p → ∀ r ∈ src, ¬ r.time + w < p) →
    (∀ a ∈ src, ∀ b ∈ src, ¬ a.time + w < b.time) →
    undoredoLoop true w src dest applied prev = ([], src.reverse ++ dest, applied ++ src)
  | [], dest, applied, prev, _, _ => by simp [undoredoLoop]
  | r :: src, dest, applied, prev, hprev, hsrc => by
    have hb : breakGroup true w prev r.time = false := by
      cases prev with
      | none => rfl
      | some p =>
        have := hprev p rfl r (by simp)
        simp [breakGroup, this]
    have ih := undoredoLoop_no_break w src (r :: dest) (applied ++ [r]) (some r.time)
      (by
        intro p hp x hx
        cases hp
        exact hsrc x (by simp [hx]) r (by simp))
      (by
        intro a ha b hb
        exact hsrc a (by simp [ha]) b (by simp [hb]))
    simp only [undoredoLoop, hb, if_neg, Bool.false_eq_true, not_false_iff, if_false, ih,
      List.reverse_cons, List.append_assoc]
    simp

/-- The full timeline of a history state: redo stack (oldest first, i.e.
reversed) followed by the undo stack, newest record first. -/
def timelineStack (st : HistState) : List ChangeRec :=
  st.historyRedo.reverse ++ st.historyUndo

/-- Timestamps are non-increasing from head to tail (newest first). -/
def timeOrdered (l : List ChangeRec) : Prop :=
  List.Chain' (fun a b => b.time ≤ a.time) l

/-- Lemma: `undoredo` permutes records between the two stacks without changing
the combined timeline at all. -/
lemma timelineStack_undoredo (und : Bool) (w : ℚ) (st : HistState) :
    timelineStack ((undoredo und w st).1) = timelineStack st := by
  cases und with
  | true =>
    obtain ⟨mv, rst, h1, h2⟩ :=
      undoredoLoop_split true w st.historyUndo st.historyRedo [] none
    have hst : (undoredo true w st).1 =
        { st with historyUndo := rst, historyRedo := mv.reverse ++ st.historyRedo } := by
      simp [undoredo, h2]
    rw [hst]
    simp [timelineStack, h1, List.reverse_append, List.append_assoc]
  | false =>
    obtain ⟨mv, rst, h1, h2⟩ :=
      undoredoLoop_split false w st.historyRedo st.historyUndo [] none
    have hst : (undoredo false w st).1 =
        { st with historyRedo := rst, historyUndo := mv.reverse ++ st.historyUndo } := by
      simp [undoredo, h2]
    rw [hst]
    simp [timelineStack, h1, List.reverse_append, List.append_assoc]

/-!
## Claim C2
-/

/-- C2: when the undo stack consists of N ChangeRecords whose timestamps
all lie within the grouping window of each other, a single `undo()` call
replays all N of them (in newest-first order) and moves exactly those N
records from the undo stack to the redo stack: the undo stack shrinks by N
(to empty) and the redo stack grows by N. -/
theorem undo_reverts_window_group (w : ℚ) (g rd : List ChangeRec) (fc : List String)
    (lin : Bool) (hwin : ∀ a ∈ g, ∀ b ∈ g, a.time ≤ b.time + w) :
    undoredo true w ⟨g, rd, fc, lin⟩ = (⟨[], g.reverse ++ rd, fc, lin⟩, g) := by
  have h := undoredoLoop_no_break w g rd [] none
    (by intro p hp; cases hp)
    (by intro a ha b hb; exact not_lt.mpr (hwin b hb a ha))
  simp [undoredo, h]

/-- Witness for C2 at a concrete two-record group within a 100 window. -/
theorem undo_reverts_window_group_witness :
    undoredo true 100 ⟨[⟨240, 1⟩, ⟨200, 0⟩], [], ["href:x"], true⟩ =
      (⟨[], [⟨200, 0⟩, ⟨240, 1⟩], ["href:x"], true⟩, [⟨240, 1⟩, ⟨200, 0⟩]) :=
  undo_reverts_window_group 100 [⟨240, 1⟩, ⟨200, 0⟩] [] ["href:x"] true
    (by intro a ha b hb; fin_cases ha <;> fin_cases hb <;> norm_num)

/-!
## Claim C3
-/

/-- C3 counterexample: with undo records at timestamps 0, 50, 300
(most-recent last, so popped newest-first) and window 100, a single
`undo()` leaves the records at 50 AND 0 on the undo stack and does not
replay the record at 50 - the claim asserts that both 300 and 50 are
reverted and only 0 remains. -/
theorem undo_boundary_cex :
    (undoredo true 100 ⟨[⟨300, 2⟩, ⟨50, 1⟩, ⟨0, 0⟩], [], [], true⟩).1.historyUndo =
        [⟨50, 1⟩, ⟨0, 0⟩] ∧
    ⟨50, 1⟩ ∉ (undoredo true 100 ⟨[⟨300, 2⟩, ⟨50, 1⟩, ⟨0, 0⟩], [], [], true⟩).2 := by
  constructor
  · norm_num [undoredo, undoredoLoop, breakGroup]
  · norm_num [undoredo, undoredoLoop, breakGroup, ChangeRec.mk.injEq]

/-- C3 amended: with undo records at timestamps 0, 50, 300 and window 100,
a single `undo()` replays ONLY the record at 300 (the 50 to 300 gap
exceeds the window, so the group ends there), leaving the records at 50
and 0 on the undo stack and moving exactly the one record at 300 to the
redo stack. -/
theorem undo_boundary_amended :
    undoredo true 100 ⟨[⟨300, 2⟩, ⟨50, 1⟩, ⟨0, 0⟩], [], [], true⟩ =
      (⟨[⟨50, 1⟩, ⟨0, 0⟩], [⟨300, 2⟩], [], true⟩, [⟨300, 2⟩]) := by
  norm_num [undoredo, undoredoLoop, breakGroup]

/-!
## Claim C10
-/

/-- C10 counterexample: a supplied grouping window of 0 ms is below the
100 ms minimum but is NOT clamped up to it - `0` is falsy in JS, so
`validateOptions` skips the `Math.max` clamp and `deepMerge` carries the
`0` through, giving an effective window of 0 rather than at least 100. -/
theorem grouping_window_clamp_cex :
    mergedGroupingWindowMs (some 0) = 0 ∧
    ¬ MIN_GROUPING_WINDOW_MS ≤ mergedGroupingWindowMs (some 0) ∧
    effectiveGroupingWindow (some 0) * TIME_SCALE_FACTOR = 0 := by
  norm_num [mergedGroupingWindowMs, validateGroupingWindow, effectiveGroupingWindow,
    MIN_GROUPING_WINDOW_MS, TIME_SCALE_FACTOR]

/-- C10 amended: for every NONZERO supplied grouping-window duration the
effective window is at least the 100 ms minimum (values below 100 are
clamped up, values at or above 100 pass through), and 200 ms is used when
no value is supplied; a supplied value of exactly 0 bypasses the clamp.
The final conjunct shows the scaling by `TIME_SCALE_FACTOR` (applied to
both the stored window and the mutation timestamps) leaves the replay
engine's group comparison equivalent to the same comparison in
milliseconds. -/
theorem grouping_window_amended (v : ℚ) (hv : v ≠ 0) :
    (v < MIN_GROUPING_WINDOW_MS → mergedGroupingWindowMs (some v) = MIN_GROUPING_WINDOW_MS) ∧
    (MIN_GROUPING_WINDOW_MS ≤ v → mergedGroupingWindowMs (some v) = v) ∧
    MIN_GROUPING_WINDOW_MS ≤ mergedGroupingWindowMs (some v) ∧
    mergedGroupingWindowMs none = DEFAULT_GROUPING_WINDOW_MS ∧
    mergedGroupingWindowMs (some 0) = 0 ∧
    (∀ t p : ℚ,
      (t / TIME_SCALE_FACTOR + effectiveGroupingWindow (some v) < p / TIME_SCALE_FACTOR ↔
        t + mergedGroupingWindowMs (some v) < p)) := by
  have hm : mergedGroupingWindowMs (some v) = max MIN_GROUPING_WINDOW_MS v := by
    simp [mergedGroupingWindowMs, validateGroupingWindow, hv]
  refine ⟨?_, ?_, ?_, rfl, ?_, ?_⟩
  · intro h; rw [hm]; exact max_eq_left h.le
  · intro h; rw [hm]; exact max_eq_right h
  · rw [hm]; exact le_max_left _ _
  · norm_num [mergedGroupingWindowMs, validateGroupingWindow]
  · intro t p
    have hpos : (0 : ℚ) < TIME_SCALE_FACTOR := by norm_num [TIME_SCALE_FACTOR]
    rw [effectiveGroupingWindow, div_add_div_same, div_lt_div_iff_of_pos_right hpos]

/-- Witness for C10 amended at the concrete supplied value 50. -/
theorem grouping_window_amended_witness :
    mergedGroupingWindowMs (some 50) = MIN_GROUPING_WINDOW_MS ∧
    mergedGroupingWindowMs none = DEFAULT_GROUPING_WINDOW_MS :=
  ⟨(grouping_window_amended 50 (by norm_num)).1 (by norm_num [MIN_GROUPING_WINDOW_MS]),
   (grouping_window_amended 50 (by norm_num)).2.2.2.1⟩

/-!
## Claim C4
-/

/-- C4 counterexample: a contained attribute mutation whose current value
is `null` (attribute removed) matching an authorized empty-value token
"style:" IS accepted by `historyForceCheck` (which maps `null` to ""), the
record is pushed, but `historyForceRemove` then throws a `TypeError`
(`null.toString()`), so NO token is consumed and an error escapes -
contradicting the claim that acceptance consumes exactly one token and
that no error is ever raised. -/
theorem attr_filter_cex :
    (mutationStep ⟨[], [], ["style:"], true⟩ (.attrM true false "style" none 5 7)).2.2 = true ∧
    ((mutationStep ⟨[], [], ["style:"], true⟩
        (.attrM true false "style" none 5 7)).1).historyForce = ["style:"] ∧
    ((mutationStep ⟨[], [], ["style:"], true⟩
        (.attrM true false "style" none 5 7)).1).historyUndo = [⟨5, 7⟩] := by
  refine ⟨rfl, rfl, rfl⟩

/-- C4 amended: an attribute mutation is appended to the undo stack iff
its target is contained in the focused element or the head AND the
(attributeName, current value) pair - with `null` read as "" - matches a
token in the force list; a mutation failing that check is filtered
silently (state unchanged, no `contentchanges`, no error); on acceptance
with a NON-null current value exactly one instance of the matched token is
consumed (first occurrence removed) and `contentchanges` fires; on
acceptance with a null current value the record is still pushed but token
consumption throws a `TypeError` before the force list, redo stack or
signal are touched. -/
theorem attr_filter_amended (st : HistState) (inF inH : Bool) (nm : String)
    (val : Option String) (t : ℚ) (rid : ℕ) :
    (((inF || inH) && historyForceCheck st.historyForce nm val) = false →
      mutationStep st (.attrM inF inH nm val t rid) = (st, false, false)) ∧
    (∀ v, val = some v →
      ((inF || inH) && historyForceCheck st.historyForce nm val) = true →
      mutationStep st (.attrM inF inH nm val t rid) =
        (resetLinearHistory
          { st with historyUndo := ⟨t, rid⟩ :: st.historyUndo,
                    historyForce := st.historyForce.erase (nm ++ ":" ++ v) },
         true, false) ∧
      ((nm ++ ":" ++ v) ∈ st.historyForce →
        ((mutationStep st (.attrM inF inH nm val t rid)).1).historyForce.length + 1 =
          st.historyForce.length)) ∧
    (val = none →
      ((inF || inH) && historyForceCheck st.historyForce nm val) = true →
      mutationStep st (.attrM inF inH nm val t rid) =
        ({ st with historyUndo := ⟨t, rid⟩ :: st.historyUndo }, false, true)) := by
  refine ⟨?_, ?_, ?_⟩
  · intro hc
    simp [mutationStep, hc]
  · intro v hv hc
    subst hv
    constructor
    · simp [mutationStep, hc, historyForceRemove]
    · intro hmem
      have h1 : ((mutationStep st (.attrM inF inH nm (some v) t rid)).1).historyForce =
          st.historyForce.erase (nm ++ ":" ++ v) := by
        simp [mutationStep, hc, historyForceRemove, resetLinearHistory_historyForce]
      rw [h1, List.length_erase_of_mem hmem]
      have h2 : 0 < st.historyForce.length := List.length_pos.mpr (List.ne_nil_of_mem hmem)
      omega
  · intro hv hc
    subst hv
    simp [mutationStep, hc, historyForceRemove]

/-- Witness for C4 amended: a rejected mutation (force list empty) leaves
the state untouched, and an authorized non-null value consumes its token. -/
theorem attr_filter_amended_witness :
    mutationStep ⟨[], [], [], true⟩ (.attrM true false "class" (some "x") 3 0) =
      (⟨[], [], [], true⟩, false, false) ∧
    mutationStep ⟨[], [], ["href:u"], true⟩ (.attrM true false "href" (some "u") 3 1) =
      (resetLinearHistory ⟨[⟨3, 1⟩], [], List.erase ["href:u"] "href:u", true⟩, true, false) :=
  ⟨(attr_filter_amended ⟨[], [], [], true⟩ true false "class" (some "x") 3 0).1 (by decide),
   ((attr_filter_amended ⟨[], [], ["href:u"], true⟩ true false "href" (some "u") 3 1).2.1
      "u" rfl (by decide)).1⟩

/-!
## Claim C5
-/

/-- C5 counterexample: in linear mode with a non-empty redo stack, an
accepted attribute mutation whose current value is `null` pushes a new
ChangeRecord onto the undo stack but throws before `resetLinearHistory`
runs, so the redo stack is NOT empty after the push - contradicting the
claim that every push in linear mode leaves the redo stack empty. -/
theorem linear_history_cex :
    ((mutationStep ⟨[], [⟨1, 9⟩], ["style:"], true⟩
        (.attrM true false "style" none 5 7)).1).historyUndo = [⟨5, 7⟩] ∧
    ((mutationStep ⟨[], [⟨1, 9⟩], ["style:"], true⟩
        (.attrM true false "style" none 5 7)).1).historyRedo = [⟨1, 9⟩] := by
  refine ⟨rfl, rfl⟩

/-- C5 amended: the push protocol (push then `resetLinearHistory`) leaves
the redo stack empty in linear mode and exactly preserves it in
non-linear mode, for every prior redo-stack state; at the level of whole
observer steps, every mutation in non-linear mode preserves the redo
stack, and in linear mode every NON-THROWING step either pushes nothing or
leaves the redo stack empty (the sole exception being the accepted
null-value attribute mutation, which throws between the push and the
redo-clear). -/
theorem linear_history_amended (st : HistState) (r : ChangeRec) (m : RawMutation) :
    (st.usesLinearUndoHistory = true → (pushRecord st r).historyRedo = []) ∧
    (st.usesLinearUndoHistory = false → (pushRecord st r).historyRedo = st.historyRedo) ∧
    (pushRecord st r).historyUndo = r :: st.historyUndo ∧
    (st.usesLinearUndoHistory = false →
      ((mutationStep st m).1).historyRedo = st.historyRedo) ∧
    (st.usesLinearUndoHistory = true → (mutationStep st m).2.2 = false →
      ((mutationStep st m).1).historyUndo = st.historyUndo ∨
        ((mutationStep st m).1).historyRedo = []) := by
  refine ⟨?_, ?_, ?_, ?_, ?_⟩
  · intro hlin
    exact resetLinearHistory_redo_of_linear _ hlin
  · intro hlin
    exact resetLinearHistory_redo_of_nonlinear _ hlin
  · exact resetLinearHistory_historyUndo _
  · intro hlin
    cases m with
    | charData t rid => exact resetLinearHistory_redo_of_nonlinear _ hlin
    | childList t rid => exact resetLinearHistory_redo_of_nonlinear _ hlin
    | attrM inF inH nm val t rid =>
      by_cases hc : ((inF || inH) && historyForceCheck st.historyForce nm val) = true
      · cases val with
        | none => simp [mutationStep, hc, historyForceRemove]
        | some v =>
          simp only [mutationStep, hc, if_true, historyForceRemove]
          exact resetLinearHistory_redo_of_nonlinear _ hlin
      · simp [mutationStep, hc]
  · intro hlin hth
    cases m with
    | charData t rid => exact Or.inr (resetLinearHistory_redo_of_linear _ hlin)
    | childList t rid => exact Or.inr (resetLinearHistory_redo_of_linear _ hlin)
    | attrM inF inH nm val t rid =>
      by_cases hc : ((inF || inH) && historyForceCheck st.historyForce nm val) = true
      · cases val with
        | none => simp [mutationStep, hc, historyForceRemove] at hth
        | some v =>
          exact Or.inr (by
            simp only [mutationStep, hc, if_true, historyForceRemove]
            exact resetLinearHistory_redo_of_linear _ hlin)
      · exact Or.inl (by simp [mutationStep, hc])

/-- Witness for C5 amended: concrete pushes in linear and non-linear mode. -/
theorem linear_history_amended_witness :
    (pushRecord ⟨[], [⟨1, 0⟩], [], true⟩ ⟨2, 1⟩).historyRedo = [] ∧
    (pushRecord ⟨[], [⟨1, 0⟩], [], false⟩ ⟨2, 1⟩).historyRedo = [⟨1, 0⟩] :=
  ⟨(linear_history_amended ⟨[], [⟨1, 0⟩], [], true⟩ ⟨2, 1⟩ (.charData 2 1)).1 rfl,
   (linear_history_amended ⟨[], [⟨1, 0⟩], [], false⟩ ⟨2, 1⟩ (.charData 2 1)).2.1 rfl⟩

/-!
## Claim C6
-/

/-- C6 counterexample: the consume operation on an absent (`null`) value
throws a `TypeError` (`val.toString()` on `null`), modelled as `none`,
instead of being an error-free no-op as the claim states; the same call
with the empty-string value succeeds. -/
theorem force_remove_cex :
    historyForceRemove ["style:"] "style" none = none ∧
    historyForceRemove ["style:"] "style" (some "") = some [] := by
  refine ⟨rfl, rfl⟩

/-- C6 amended: for every attribute name and every NON-null value the
consume operation removes exactly one matching token (the first
occurrence) when one is present - the force list shrinks by exactly one
and the multiplicity of the token drops by exactly one - and is an
error-free no-op when none is present; calling it with a null value
throws a `TypeError` instead of succeeding. -/
theorem force_remove_amended (force : List String) (attr v : String) :
    historyForceRemove force attr (some v) = some (force.erase (attr ++ ":" ++ v)) ∧
    ((attr ++ ":" ++ v) ∈ force →
      (force.erase (attr ++ ":" ++ v)).length + 1 = force.length ∧
      (force.erase (attr ++ ":" ++ v)).count (attr ++ ":" ++ v) + 1 =
        force.count (attr ++ ":" ++ v)) ∧
    ((attr ++ ":" ++ v) ∉ force → force.erase (attr ++ ":" ++ v) = force) ∧
    historyForceRemove force attr none = none := by
  refine ⟨rfl, ?_, ?_, rfl⟩
  · intro hmem
    constructor
    · rw [List.length_erase_of_mem hmem]
      have : 0 < force.length := List.length_pos.mpr (List.ne_nil_of_mem hmem)
      omega
    · rw [List.count_erase_self]
      have : 0 < force.count (attr ++ ":" ++ v) := List.count_pos_iff.mpr hmem
      omega
  · intro hmem
    exact List.erase_of_not_mem hmem

/-- Witness for C6 amended: concrete removal of one of two duplicate
tokens and a no-op on a non-matching list. -/
theorem force_remove_amended_witness :
    (List.erase ["alt:a", "alt:a"] ("alt" ++ ":" ++ "a")).length + 1 = 2 ∧
    List.erase ["src:b"] ("alt" ++ ":" ++ "a") = ["src:b"] :=
  ⟨((force_remove_amended ["alt:a", "alt:a"] "alt" "a").2.1 (by decide)).1,
   (force_remove_amended ["src:b"] "alt" "a").2.2.1 (by decide)⟩

/-!
## Claim C7
-/

/-- A non-throwing observer step pushes exactly one record when it fires
`contentchanges` and none when it does not. -/
lemma mutationStep_push_count (st : HistState) (m : RawMutation)
    (hth : (mutationStep st m).2.2 = false) :
    ((mutationStep st m).1).historyUndo.length =
      st.historyUndo.length + (if (mutationStep st m).2.1 then 1 else 0) := by
  cases m with
  | charData t rid => simp [mutationStep, pushRecord, resetLinearHistory_historyUndo]
  | childList t rid => simp [mutationStep, pushRecord, resetLinearHistory_historyUndo]
  | attrM inF inH nm val t rid =>
    by_cases hc : ((inF || inH) && historyForceCheck st.historyForce nm val) = true
    · cases val with
      | none => simp [mutationStep, hc, historyForceRemove] at hth
      | some v => simp [mutationStep, hc, historyForceRemove, resetLinearHistory_historyUndo]
    · simp [mutationStep, hc]

/-- Over a whole non-throwing batch, the number of `contentchanges`
dispatches equals the number of records appended to the undo stack. -/
lemma processMutations_length (st : HistState) :
    ∀ muts : List RawMutation, (processMutations st muts).2.2 = false →
    ((processMutations st muts).1).historyUndo.length =
      st.historyUndo.length + (processMutations st muts).2.1
  | [], _ => by simp [processMutations]
  | m :: rest, hth => by
    by_cases h1 : (mutationStep st m).2.2 = true
    · simp [processMutations, h1] at hth
    · have h1f : (mutationStep st m).2.2 = false := by
        simpa using h1
      have hrest : (processMutations (mutationStep st m).1 rest).2.2 = false := by
        simpa [processMutations, h1f] using hth
      have ih := processMutations_length (mutationStep st m).1 rest hrest
      have hstep := mutationStep_push_count st m h1f
      simp only [processMutations, h1f, Bool.false_eq_true, if_false]
      simp only [ih, hstep]
      omega

/-- C7 counterexample: with capture active, a batch of two accepted
characterData notifications fires `contentchanges` twice, and a non-empty
batch whose single attribute notification fails the force check fires it
zero times - the claim demands exactly one firing per non-empty batch in
both cases.  (The once-per-batch event in the source is `editorchanges`,
counted in the third component.) -/
theorem batch_signal_cex :
    (setObserverBatch true false ⟨[], [], [], true⟩
        [.charData 1 0, .charData 1 1]).2.1 = 2 ∧
    (setObserverBatch true false ⟨[], [], [], true⟩
        [.attrM true false "class" (some "x") 1 0]).2.1 = 0 ∧
    (setObserverBatch true false ⟨[], [], [], true⟩
        [.attrM true false "class" (some "x") 1 0]).2.2 = 1 := by
  refine ⟨rfl, rfl, rfl⟩

/-- C7 amended: while capture is active (editing enabled, not suspended)
and the batch does not throw, `contentchanges` fires once per ACCEPTED
notification - exactly as many times as records are appended to the undo
stack, so 0 times for a fully filtered batch and N times for N accepted
notifications - while `editorchanges` fires exactly once per batch; with
capture inactive nothing fires and the state is unchanged. -/
theorem batch_signal_amended (editing ignore : Bool) (st : HistState)
    (muts : List RawMutation) :
    ((editing && !ignore) = false → setObserverBatch editing ignore st muts = (st, 0, 0)) ∧
    ((editing && !ignore) = true → (processMutations st muts).2.2 = false →
      ((setObserverBatch editing ignore st muts).1).historyUndo.length =
        st.historyUndo.length + (setObserverBatch editing ignore st muts).2.1 ∧
      (setObserverBatch editing ignore st muts).2.2 = 1) := by
  constructor
  · intro hc
    simp [setObserverBatch, hc]
  · intro hc hth
    have hl := processMutations_length st muts hth
    constructor
    · simpa [setObserverBatch, hc] using hl
    · simp [setObserverBatch, hc, hth]

/-- Witness for C7 amended: an inactive batch is dropped whole; an active
batch with one accepted and one filtered notification appends one record
and reports one `editorchanges`. -/
theorem batch_signal_amended_witness :
    setObserverBatch false false ⟨[], [], [], true⟩ [.charData 1 0] = (⟨[], [], [], true⟩, 0, 0) ∧
    ((setObserverBatch true false ⟨[], [], [], true⟩
        [.charData 1 0, .attrM true false "class" (some "x") 2 1]).1).historyUndo.length =
      0 + (setObserverBatch true false ⟨[], [], [], true⟩
        [.charData 1 0, .attrM true false "class" (some "x") 2 1]).2.1 :=
  ⟨(batch_signal_amended false false ⟨[], [], [], true⟩ [.charData 1 0]).1 rfl,
   ((batch_signal_amended true false ⟨[], [], [], true⟩
      [.charData 1 0, .attrM true false "class" (some "x") 2 1]).2 rfl rfl).1⟩

/-!
## Claim C9
-/

/-- The `time` field of a raw mutation (the value assigned at line 1294). -/
def mutTime : RawMutation → ℚ
  | .charData t _ => t
  | .attrM _ _ _ _ t _ => t
  | .childList t _ => t

/-- Lemma: consing a record at least as new as every element onto a
time-ordered stack keeps it time-ordered. -/
lemma timeOrdered_cons (u : List ChangeRec) (r : ChangeRec)
    (hu : timeOrdered u) (hc : ∀ x ∈ u, x.time ≤ r.time) :
    timeOrdered (r :: u) := by
  rw [timeOrdered, List.chain'_cons']
  refine ⟨?_, hu⟩
  intro b hb
  cases hu2 : u with
  | nil => simp [hu2] at hb
  | cons hd tl =>
    have hbe : b = hd := by simp [hu2] at hb; exact hb.symm
    subst hbe
    exact hc b (by simp [hu2])

/-- C9 counterexample, two reachable traces with non-decreasing capture
clocks that break undo-stack timestamp monotonicity.  Trace one
(non-linear mode): capture at time 1, `undo()`, capture at time 200 (the
redo stack is kept), `redo()` - the stale record at time 1 lands on top of
the record at time 200.  Trace two (LINEAR mode): with "style:"
authorized, capture at time 50, `undo()`, then an accepted null-value
attribute mutation at time 150 - the record is pushed at line 1308 but
`historyForceRemove` throws at line 1309 before `resetLinearHistory`, so
the redo stack survives - and `redo()` puts the stale record at time 50 on
top of the record at time 150.  Both final undo stacks read newer-below-
older, refuting monotonicity in every reachable state in either mode. -/
theorem undo_monotone_cex :
    (¬ timeOrdered ((undoredo false 100
        (pushRecord ((undoredo true 100
          (pushRecord ⟨[], [], [], false⟩ ⟨1, 0⟩)).1) ⟨200, 1⟩)).1).historyUndo) ∧
    (¬ timeOrdered ((undoredo false 100
        ((mutationStep ((undoredo true 100
          ((mutationStep ⟨[], [], ["style:"], true⟩ (.charData 50 0)).1)).1)
          (.attrM true false "style" none 150 1)).1)).1).historyUndo) := by
  constructor
  · have h : ((undoredo false 100
        (pushRecord ((undoredo true 100
          (pushRecord ⟨[], [], [], false⟩ ⟨1, 0⟩)).1) ⟨200, 1⟩)).1).historyUndo =
        [⟨1, 0⟩, ⟨200, 1⟩] := by
      norm_num [pushRecord, resetLinearHistory, undoredo, undoredoLoop, breakGroup]
    rw [h]
    simp only [timeOrdered, List.chain'_cons, List.chain'_singleton, and_true]
    norm_num
  · have hb1 : (mutationStep ⟨[], [], ["style:"], true⟩ (.charData 50 0)).1 =
        ⟨[⟨50, 0⟩], [], ["style:"], true⟩ := rfl
    have hb2 : (undoredo true 100 (⟨[⟨50, 0⟩], [], ["style:"], true⟩ : HistState)).1 =
        ⟨[], [⟨50, 0⟩], ["style:"], true⟩ := by
      norm_num [undoredo, undoredoLoop, breakGroup]
    have hb3 : (mutationStep ⟨[], [⟨50, 0⟩], ["style:"], true⟩
        (.attrM true false "style" none 150 1)).1 =
        ⟨[⟨150, 1⟩], [⟨50, 0⟩], ["style:"], true⟩ := rfl
    have hb4 : (undoredo false 100 (⟨[⟨150, 1⟩], [⟨50, 0⟩], ["style:"], true⟩ : HistState)).1 =
        ⟨[⟨50, 0⟩, ⟨150, 1⟩], [], ["style:"], true⟩ := by
      norm_num [undoredo, undoredoLoop, breakGroup]
    rw [hb1, hb2, hb3, hb4]
    simp only [timeOrdered, List.chain'_cons, List.chain'_singleton, and_true]
    norm_num

/-- C9 amended: undo-stack timestamps are monotonically non-decreasing in
push order in every state satisfying the combined timeline ordering (redo
stack reversed, then undo stack, newest record first): that ordering
implies undo-stack monotonicity, is preserved - with linear-history mode
enabled - by every NON-THROWING observer push whose mutation time is at
least every recorded undo time (non-decreasing clock), and is left
exactly unchanged by `undo()` and `redo()`.  The ordering does NOT hold
in every reachable state: a non-linear capture keeps a stale redo stack,
and even in linear mode an accepted null-value attribute capture throws
before the redo-clear and keeps it too; in both cases a later `redo()`
places a stale older record on top of a newer one (the counterexample's
two traces). -/
theorem undo_monotone_amended (st : HistState) (m : RawMutation) (und : Bool) (w : ℚ)
    (hlin : st.usesLinearUndoHistory = true)
    (hJ : timeOrdered (timelineStack st))
    (hclock : ∀ x ∈ st.historyUndo, x.time ≤ mutTime m)
    (hth : (mutationStep st m).2.2 = false) :
    timeOrdered st.historyUndo ∧
    timeOrdered (timelineStack ((mutationStep st m).1)) ∧
    timelineStack ((undoredo und w st).1) = timelineStack st := by
  have hundo : timeOrdered st.historyUndo := by
    have := (List.chain'_append.mp hJ).2.1
    exact this
  refine ⟨hundo, ?_, timelineStack_undoredo und w st⟩
  cases m with
  | charData t rid =>
    have hl : ({ st with historyUndo := ⟨t, rid⟩ :: st.historyUndo } :
        HistState).usesLinearUndoHistory = true := hlin
    have hredo : (pushRecord st ⟨t, rid⟩).historyRedo = [] :=
      resetLinearHistory_redo_of_linear _ hl
    have hun : (pushRecord st ⟨t, rid⟩).historyUndo = ⟨t, rid⟩ :: st.historyUndo :=
      resetLinearHistory_historyUndo _
    show timeOrdered (timelineStack (pushRecord st ⟨t, rid⟩))
    rw [timelineStack, hredo, hun]
    simp only [List.reverse_nil, List.nil_append]
    exact timeOrdered_cons st.historyUndo ⟨t, rid⟩ hundo hclock
  | childList t rid =>
    have hl : ({ st with historyUndo := ⟨t, rid⟩ :: st.historyUndo } :
        HistState).usesLinearUndoHistory = true := hlin
    have hredo : (pushRecord st ⟨t, rid⟩).historyRedo = [] :=
      resetLinearHistory_redo_of_linear _ hl
    have hun : (pushRecord st ⟨t, rid⟩).historyUndo = ⟨t, rid⟩ :: st.historyUndo :=
      resetLinearHistory_historyUndo _
    show timeOrdered (timelineStack (pushRecord st ⟨t, rid⟩))
    rw [timelineStack, hredo, hun]
    simp only [List.reverse_nil, List.nil_append]
    exact timeOrdered_cons st.historyUndo ⟨t, rid⟩ hundo hclock
  | attrM inF inH nm val t rid =>
    by_cases hc2 : ((inF || inH) && historyForceCheck st.historyForce nm val) = true
    · cases val with
      | none => simp [mutationStep, hc2, historyForceRemove] at hth
      | some v =>
        have hstep : (mutationStep st (.attrM inF inH nm (some v) t rid)).1 =
            resetLinearHistory
              { st with historyUndo := ⟨t, rid⟩ :: st.historyUndo,
                        historyForce := st.historyForce.erase (nm ++ ":" ++ v) } := by
          simp [mutationStep, hc2, historyForceRemove]
        have hl : ({ st with historyUndo := ⟨t, rid⟩ :: st.historyUndo,
                             historyForce := st.historyForce.erase (nm ++ ":" ++ v) } :
            HistState).usesLinearUndoHistory = true := hlin
        have hredo : (resetLinearHistory
            { st with historyUndo := ⟨t, rid⟩ :: st.historyUndo,
                      historyForce := st.historyForce.erase (nm ++ ":" ++ v) }).historyRedo
            = [] := resetLinearHistory_redo_of_linear _ hl
        have hun : (resetLinearHistory
            { st with historyUndo := ⟨t, rid⟩ :: st.historyUndo,
                      historyForce := st.historyForce.erase (nm ++ ":" ++ v) }).historyUndo
            = ⟨t, rid⟩ :: st.historyUndo := resetLinearHistory_historyUndo _
        rw [hstep, timelineStack, hredo, hun]
        simp only [List.reverse_nil, List.nil_append]
        exact timeOrdered_cons st.historyUndo ⟨t, rid⟩ hundo hclock
    · have hstep : (mutationStep st (.attrM inF inH nm val t rid)).1 = st := by
        simp [mutationStep, hc2]
      rw [hstep]
      exact hJ

/-- Witness for C9 amended at a concrete linear-mode state and a concrete
non-throwing characterData capture. -/
theorem undo_monotone_amended_witness :
    timeOrdered (⟨[⟨2, 1⟩, ⟨1, 0⟩], [], [], true⟩ : HistState).historyUndo ∧
    timeOrdered (timelineStack ((mutationStep ⟨[⟨2, 1⟩, ⟨1, 0⟩], [], [], true⟩
      (.charData 3 2)).1)) ∧
    timelineStack ((undoredo true 100 (⟨[⟨2, 1⟩, ⟨1, 0⟩], [], [], true⟩ : HistState)).1) =
      timelineStack ⟨[⟨2, 1⟩, ⟨1, 0⟩], [], [], true⟩ :=
  undo_monotone_amended ⟨[⟨2, 1⟩, ⟨1, 0⟩], [], [], true⟩ (.charData 3 2) true 100 rfl
    (by
      simp only [timelineStack, timeOrdered, List.reverse_nil, List.nil_append,
        List.chain'_cons, List.chain'_singleton, and_true]
      norm_num)
    (by
      intro x hx
      fin_cases hx <;> norm_num [mutTime])
    rfl


/-!
## Attribute-lookup lemmas for Claim C1
-/

/-- Unfolding equation for `lookupAttr` on a cons cell. -/
lemma lookupAttr_cons (n k w : String) (t : Attrs) :
    lookupAttr n ((k, w) :: t) = if k = n then some w else lookupAttr n t := rfl

/-- A name that is not a key of the collection looks up to `none`. -/
lemma lookupAttr_eq_none_of_not_mem (n : String) :
    ∀ a : Attrs, n ∉ a.map Prod.fst → lookupAttr n a = none
  | [], _ => rfl
  | (k, w) :: t, h => by
    have hk : k ≠ n := by
      intro he; exact h (by simp [he])
    rw [lookupAttr_cons, if_neg hk]
    exact lookupAttr_eq_none_of_not_mem n t (by
      intro hm; exact h (by simp [hm]))

/-- A name that looks up to `none` is not a key of the collection. -/
lemma not_mem_of_lookupAttr_eq_none (n : String) :
    ∀ a : Attrs, lookupAttr n a = none → n ∉ a.map Prod.fst
  | [], _ => by simp
  | (k, w) :: t, h => by
    by_cases hk : k = n
    · rw [lookupAttr_cons, if_pos hk] at h
      cases h
    · rw [lookupAttr_cons, if_neg hk] at h
      have ht := not_mem_of_lookupAttr_eq_none n t h
      simp only [List.map_cons, List.mem_cons]
      intro hmem
      rcases hmem with he | hm
      · exact hk he.symm
      · exact ht hm

/-- Lookup distributes over append, preferring the left collection. -/
lemma lookupAttr_append (n : String) :
    ∀ a b : Attrs, lookupAttr n (a ++ b) =
      (match lookupAttr n a with
       | some w => some w
       | none => lookupAttr n b)
  | [], b => rfl
  | (k, w) :: t, b => by
    rw [List.cons_append, lookupAttr_cons, lookupAttr_cons]
    by_cases hk : k = n
    · rw [if_pos hk, if_pos hk]
    · rw [if_neg hk, if_neg hk]
      exact lookupAttr_append n t b

/-- Replacing every entry keyed `m` does not change lookups of other
names. -/
lemma lookupAttr_map_replace (n m v : String) (hnm : m ≠ n) :
    ∀ a : Attrs,
      lookupAttr n (a.map (fun p => if p.1 = m then (m, v) else p)) = lookupAttr n a
  | [] => rfl
  | (k, w) :: t => by
    simp only [List.map_cons]
    by_cases hk : k = m
    · have he : (if ((k, w) : String × String).1 = m then (m, v) else (k, w)) = (m, v) :=
        if_pos hk
      have hkn : k ≠ n := by rw [hk]; exact hnm
      rw [he, lookupAttr_cons, if_neg hnm, lookupAttr_cons, if_neg hkn]
      exact lookupAttr_map_replace n m v hnm t
    · have he : (if ((k, w) : String × String).1 = m then (m, v) else (k, w)) = (k, w) :=
        if_neg hk
      rw [he, lookupAttr_cons, lookupAttr_cons]
      by_cases hkn : k = n
      · rw [if_pos hkn, if_pos hkn]
      · rw [if_neg hkn, if_neg hkn]
        exact lookupAttr_map_replace n m v hnm t

/-- Replacing every entry keyed `m` makes `m` look up to the new value,
provided `m` is a key of the collection. -/
lemma lookupAttr_map_replace_self (m v : String) :
    ∀ a : Attrs, a.any (fun p => p.1 = m) = true →
      lookupAttr m (a.map (fun p => if p.1 = m then (m, v) else p)) = some v
  | (k, w) :: t, h => by
    simp only [List.map_cons]
    by_cases hk : k = m
    · have he : (if ((k, w) : String × String).1 = m then (m, v) else (k, w)) = (m, v) :=
        if_pos hk
      rw [he, lookupAttr_cons, if_pos rfl]
    · have he : (if ((k, w) : String × String).1 = m then (m, v) else (k, w)) = (k, w) :=
        if_neg hk
      have hkm : k ≠ m := hk
      rw [he, lookupAttr_cons, if_neg hkm]
      have ht : t.any (fun p => p.1 = m) = true := by
        rcases List.any_eq_true.mp h with ⟨p, hp, hpm⟩
        rcases List.mem_cons.mp hp with he2 | hm
        · exact absurd (by rw [he2] at hpm; simpa using hpm) hk
        · exact List.any_eq_true.mpr ⟨p, hm, hpm⟩
      exact lookupAttr_map_replace_self m v t ht

/-- The single characterising equation of DOM `setAttribute`:
the written name now looks up to the written value, all other lookups are
unchanged. -/
lemma lookupAttr_setAttr (a : Attrs) (n m v : String) :
    lookupAttr n (setAttr a m v) = if m = n then some v else lookupAttr n a := by
  unfold setAttr
  by_cases hany : a.any (fun p => p.1 = m) = true
  · rw [if_pos hany]
    by_cases h : m = n
    · subst h
      rw [if_pos rfl]
      exact lookupAttr_map_replace_self m v a hany
    · rw [if_neg h]
      exact lookupAttr_map_replace n m v h a
  · rw [if_neg hany, lookupAttr_append]
    by_cases h : m = n
    · subst h
      have hnone : lookupAttr m a = none := by
        apply lookupAttr_eq_none_of_not_mem
        intro hm
        apply hany
        rw [List.any_eq_true]
        obtain ⟨p, hp, he⟩ := List.mem_map.mp hm
        exact ⟨p, hp, by simp [he]⟩
      rw [hnone, if_pos rfl]
      rw [lookupAttr_cons, if_pos rfl]
    · rw [if_neg h]
      cases hc : lookupAttr n a with
      | some w => rfl
      | none =>
        rw [lookupAttr_cons, if_neg h]
        rfl

/-- Applying a saved collection whose keys avoid `n` does not change the
lookup of `n`. -/
lemma lookupAttr_applyAttrs_not_mem (n : String) :
    ∀ (s : Attrs) (base : Attrs), n ∉ s.map Prod.fst →
      lookupAttr n (applyAttrs base s) = lookupAttr n base
  | [], base, _ => rfl
  | (m, v) :: t, base, h => by
    have hmn : m ≠ n := by
      intro he; exact h (by simp [he])
    have ht : n ∉ t.map Prod.fst := by
      intro hm; exact h (by simp [hm])
    show lookupAttr n (applyAttrs (setAttr base m v) t) = lookupAttr n base
    rw [lookupAttr_applyAttrs_not_mem n t (setAttr base m v) ht,
      lookupAttr_setAttr, if_neg hmn]

/-- Applying a saved collection with pairwise-distinct keys: names in the
saved collection look up to their saved values, other names fall through
to the base. -/
lemma lookupAttr_applyAttrs_nodup (n : String) :
    ∀ (s : Attrs) (base : Attrs), (s.map Prod.fst).Nodup →
      lookupAttr n (applyAttrs base s) =
        (match lookupAttr n s with
         | some w => some w
         | none => lookupAttr n base)
  | [], base, _ => rfl
  | (m, v) :: t, base, h => by
    rw [List.map_cons, List.nodup_cons] at h
    obtain ⟨hmt, hnt⟩ := h
    show lookupAttr n (applyAttrs (setAttr base m v) t) =
      (match lookupAttr n ((m, v) :: t) with
       | some w => some w
       | none => lookupAttr n base)
    rw [lookupAttr_applyAttrs_nodup n t (setAttr base m v) hnt, lookupAttr_cons]
    by_cases hmn : m = n
    · subst hmn
      have hnone : lookupAttr m t = none := lookupAttr_eq_none_of_not_mem m t hmt
      rw [hnone, if_pos rfl, lookupAttr_setAttr, if_pos rfl]
    · rw [if_neg hmn]
      cases hc : lookupAttr n t with
      | some w => rfl
      | none => rw [lookupAttr_setAttr, if_neg hmn]

/-- Round trip of one attribute-mode element: wiping the element and
re-applying its baseline `s`, then re-applying the pre-restore collection
`c` on top, is lookup-identical to `c` provided `c` has distinct keys and
every baseline key is still a key of `c`. -/
lemma applyAttrs_roundtrip_lookup (s c : Attrs)
    (hnd : (c.map Prod.fst).Nodup)
    (hsub : ∀ k ∈ s.map Prod.fst, k ∈ c.map Prod.fst) (n : String) :
    lookupAttr n (applyAttrs (applyAttrs [] s) c) = lookupAttr n c := by
  rw [lookupAttr_applyAttrs_nodup n c (applyAttrs [] s) hnd]
  cases hc : lookupAttr n c with
  | some w => rfl
  | none =>
    have hnc : n ∉ c.map Prod.fst := not_mem_of_lookupAttr_eq_none n c hc
    have hns : n ∉ s.map Prod.fst := fun hm => hnc (hsub n hm)
    rw [lookupAttr_applyAttrs_not_mem n s [] hns]
    rfl

/-- Index-wise description of the attribute collections produced by the
round trip: position `i` holds the baseline re-applied over the wiped
element with the pre-restore collection applied on top. -/
lemma roundtrip_attrCur_getD :
    ∀ (S C : List Attrs), S.length = C.length → ∀ i : ℕ,
      (List.zipWith applyAttrs (S.map (fun s => applyAttrs [] s)) C).getD i [] =
        (if i < C.length then applyAttrs (applyAttrs [] (S.getD i [])) (C.getD i []) else [])
  | [], [], _, i => by simp
  | [], c :: C, h, i => by simp at h
  | s :: S, [], h, i => by simp at h
  | s :: S, c :: C, h, 0 => by simp
  | s :: S, c :: C, h, (i + 1) => by
    have hh : S.length = C.length := by simpa using h
    simp only [List.map_cons, List.zipWith_cons_cons, List.getD_cons_succ, List.length_cons,
      Nat.succ_lt_succ_iff]
    exact roundtrip_attrCur_getD S C hh i

/-!
## Claim C1
-/

/-- C1 counterexample: one attribute-mode restorable element whose
authored baseline carries `class="loading"` but whose live attribute set
is empty at the moment of export (the attribute was removed after
construction).  `restore()` wipes the element and re-applies the baseline;
`undoRestore()` re-applies the (empty) undo snapshot WITHOUT removing the
baseline attributes first, so after the round trip the element carries
`class="loading"` although it had no attributes before `restore()` - the
round trip is not the identity. -/
theorem restore_roundtrip_cex :
    lookupAttr "class"
        (((undoRestore (restore
          (⟨[], [], [], [[]], [[("class", "loading")]], []⟩ : NcsedtRestorable))).attrCur).getD 0 [])
      = some "loading" ∧
    lookupAttr "class"
        ((⟨[], [], [], [[]], [[("class", "loading")]], []⟩ : NcsedtRestorable).attrCur.getD 0 [])
      = none :=
  ⟨rfl, rfl⟩

/-- C1 amended: `restore()` then `undoRestore()` with no other mutation in
between restores every tag-mode element's `innerHTML` exactly
(unconditionally), and restores every attribute-mode element's attribute
set exactly - as a lookup-for-lookup identity - PROVIDED every attribute
name of the element's authored baseline is still present on the element
when `restore()` is called (attribute collections have pairwise-distinct
names, and the parallel baseline list has the length fixed at
construction).  When a baseline attribute was removed before `restore()`,
the round trip reinstates it instead (see the counterexample). -/
theorem restore_roundtrip_amended (r : NcsedtRestorable)
    (hlen : r.attrSaved.length = r.attrCur.length)
    (hnd : ∀ i : ℕ, ((r.attrCur.getD i []).map Prod.fst).Nodup)
    (hsub : ∀ i : ℕ, ∀ k ∈ (r.attrSaved.getD i []).map Prod.fst,
      k ∈ (r.attrCur.getD i []).map Prod.fst) :
    (undoRestore (restore r)).tagCur = r.tagCur ∧
    (undoRestore (restore r)).tagSaved = r.tagSaved ∧
    (undoRestore (restore r)).attrSaved = r.attrSaved ∧
    ∀ i : ℕ, ∀ n : String,
      lookupAttr n ((undoRestore (restore r)).attrCur.getD i []) =
        lookupAttr n (r.attrCur.getD i []) := by
  refine ⟨rfl, rfl, rfl, ?_⟩
  intro i n
  have hAC : (undoRestore (restore r)).attrCur =
      List.zipWith applyAttrs (r.attrSaved.map (fun s => applyAttrs [] s)) r.attrCur := rfl
  rw [hAC, roundtrip_attrCur_getD r.attrSaved r.attrCur hlen i]
  by_cases hi : i < r.attrCur.length
  · rw [if_pos hi]
    exact applyAttrs_roundtrip_lookup (r.attrSaved.getD i []) (r.attrCur.getD i [])
      (hnd i) (hsub i) n
  · rw [if_neg hi, List.getD_eq_default _ _ (le_of_not_lt hi)]

/-- Witness for C1 amended: one tag-mode element and one attribute-mode
element whose baseline key `id` is still present (with a different value)
before `restore()`. -/
theorem restore_roundtrip_amended_witness :
    (undoRestore (restore
      (⟨["live"], ["authored"], [], [[("id", "x")]], [[("id", "y")]], []⟩ :
        NcsedtRestorable))).tagCur = ["live"] ∧
    lookupAttr "id"
        (((undoRestore (restore
          (⟨["live"], ["authored"], [], [[("id", "x")]], [[("id", "y")]], []⟩ :
            NcsedtRestorable))).attrCur).getD 0 []) =
      lookupAttr "id" (([[("id", "x")]] : List Attrs).getD 0 []) := by
  have h := restore_roundtrip_amended
    (⟨["live"], ["authored"], [], [[("id", "x")]], [[("id", "y")]], []⟩ : NcsedtRestorable)
    (by decide)
    (by
      intro i
      cases i with
      | zero => decide
      | succ j => simp [List.getD])
    (by
      intro i k hk
      cases i with
      | zero => simpa using hk
      | succ j => simp [List.getD] at hk)
  exact ⟨h.1, h.2.2.2 0 "id"⟩

/-!
## Occurrence lemmas for Claim C8
-/

/-- Membership in the occurrence list. -/
lemma mem_occList (pat s : List Char) (i : ℕ) :
    i ∈ occList pat s ↔ i ≤ s.length ∧ pat.isPrefixOf (s.drop i) := by
  simp [occList, List.mem_filter, List.mem_range, Nat.lt_succ_iff]

/-- When the pattern matches at position 0, the first occurrence is 0. -/
lemma occList_head_of_prefix (pat s : List Char) (h : pat.isPrefixOf s = true) :
    (occList pat s).head? = some 0 := by
  unfold occList
  rw [List.range_succ_eq_map, List.filter_cons]
  have hp : pat <+: s := List.isPrefixOf_iff_prefix.mp h
  simp [hp]

/-- The occurrence list is strictly increasing. -/
lemma occList_pairwise (pat s : List Char) : (occList pat s).Pairwise (· < ·) :=
  List.Pairwise.filter _ (List.pairwise_lt_range _)

/-- In a strictly increasing list, an upper bound that is a member is the
last element. -/
lemma sorted_getLast?_eq_max :
    ∀ l : List ℕ, l.Pairwise (· < ·) → ∀ M : ℕ, M ∈ l → (∀ x ∈ l, x ≤ M) →
      l.getLast? = some M
  | [], _, M, hM, _ => absurd hM (List.not_mem_nil M)
  | [a], _, M, hM, _ => by
    have he : M = a := by simpa using hM
    simp [he]
  | a :: b :: t, hp, M, hM, hb => by
    rw [List.getLast?_cons_cons]
    have hp2 : (b :: t).Pairwise (· < ·) := (List.pairwise_cons.mp hp).2
    have hab : ∀ x ∈ b :: t, a < x := (List.pairwise_cons.mp hp).1
    have hM2 : M ∈ b :: t := by
      rcases List.mem_cons.mp hM with he | hm
      · exfalso
        have hb2 : b ≤ M := hb b (by simp)
        have hlt : a < b := hab b (by simp)
        subst he
        exact absurd hb2 (not_le.mpr hlt)
      · exact hm
    exact sorted_getLast?_eq_max (b :: t) hp2 M hM2 (fun x hx => hb x (by simp [hx]))

/-!
## Claim C8
-/

/-- C8: the implement-sentinel pass deletes everything between the begin
sentinel and the end sentinel inclusively: an input of the shape
begin-sentinel, X, end-sentinel, Y - where the displayed end sentinel is
the last end-sentinel occurrence in the input, which pins the
decomposition down (the greedy `.*` extends to the last end sentinel) -
reduces to exactly `Y`; and an input containing no begin sentinel at all
is returned unchanged (the pass is a total function - no failure case
exists). -/
theorem implement_pass_spec :
    (∀ X Y : List Char,
      (∀ j ∈ occList endSentinel (beginSentinel ++ X ++ endSentinel ++ Y),
        j ≤ beginSentinel.length + X.length) →
      ncsedtRemoverImplement (beginSentinel ++ X ++ endSentinel ++ Y) = Y) ∧
    (∀ s : List Char, occList beginSentinel s = [] →
      ncsedtRemoverImplement s = s) := by
  constructor
  · intro X Y hLast
    set s : List Char := beginSentinel ++ X ++ endSentinel ++ Y with hs
    have hpre : beginSentinel.isPrefixOf s = true := by
      rw [ List.isPrefixOf_iff_prefix, hs, List.append_assoc, List.append_assoc]
      exact List.prefix_append _ _
    have hhead : (occList beginSentinel s).head? = some 0 :=
      occList_head_of_prefix _ _ hpre
    have hlenBX : (beginSentinel ++ X).length = beginSentinel.length + X.length :=
      List.length_append _ _
    have hlenBXE : ((beginSentinel ++ X) ++ endSentinel).length =
        beginSentinel.length + X.length + endSentinel.length := by
      rw [List.length_append, hlenBX]
    have hsplit : s = (beginSentinel ++ X) ++ (endSentinel ++ Y) := by
      rw [hs, List.append_assoc, List.append_assoc]
    have hdrop : s.drop (beginSentinel.length + X.length) = endSentinel ++ Y := by
      rw [hsplit, ← hlenBX, List.drop_left]
    have hM : beginSentinel.length + X.length ∈
        (occList endSentinel s).filter (fun j => 0 + beginSentinel.length ≤ j) := by
      rw [List.mem_filter]
      constructor
      · rw [mem_occList]
        refine ⟨?_, ?_⟩
        · rw [hsplit, List.length_append, hlenBX]
          omega
        · rw [hdrop, List.isPrefixOf_iff_prefix]
          exact List.prefix_append _ _
      · simp
    have hbound : ∀ x ∈ (occList endSentinel s).filter
        (fun j => 0 + beginSentinel.length ≤ j), x ≤ beginSentinel.length + X.length := by
      intro x hx
      exact hLast x (List.mem_of_mem_filter hx)
    have hsorted : ((occList endSentinel s).filter
        (fun j => 0 + beginSentinel.length ≤ j)).Pairwise (· < ·) :=
      List.Pairwise.filter _ (occList_pairwise _ _)
    have hlast : ((occList endSentinel s).filter
        (fun j => 0 + beginSentinel.length ≤ j)).getLast? =
        some (beginSentinel.length + X.length) :=
      sorted_getLast?_eq_max _ hsorted _ hM hbound
    have hdropall : s.drop (beginSentinel.length + X.length + endSentinel.length) = Y := by
      rw [hs, ← hlenBXE, List.drop_left]
    simp only [ncsedtRemoverImplement, hhead, hlast]
    rw [List.take_zero, List.nil_append, ← hdropall]
  · intro s h
    simp [ncsedtRemoverImplement, h]

/-- Witness for C8: the concrete input begin-sentinel, "x", end-sentinel,
"y" reduces to "y", and an input without sentinels is unchanged. -/
theorem implement_pass_spec_witness :
    ncsedtRemoverImplement (beginSentinel ++ "x".data ++ endSentinel ++ "y".data) = "y".data ∧
    ncsedtRemoverImplement "<p>hello</p>".data = "<p>hello</p>".data :=
  ⟨implement_pass_spec.1 "x".data "y".data (by decide),
   implement_pass_spec.2 "<p>hello</p>".data (by decide)⟩
